import Mathlib

/-!
Verification of `src/utils.py` of the credit-risk-classification repository:
a shallow embedding of its five utility functions (CSV loading aside) and of
the library routines they delegate to, together with proofs of the spec's
testable properties.

Cell values and row-index labels are modelled as integers; a tabular dataset
is an ordered list of named columns realised row-wise; a column (series) is a
named list of (index label, value) pairs.
-/

/-- A cell value (and a target-class value). -/
abbrev Val := Int

/-- A row-index label. -/
abbrev Label := Int

/-- Python exceptions surfaced by the module, per the spec's error taxonomy. -/
inductive PyError where
  | keyError : PyError
  | valueError : PyError
  | typeError : String → PyError
  | fileNotFoundError : PyError
  deriving DecidableEq, Repr

/-- A pandas Series: a named sequence of (row-index label, value) pairs. -/
structure Series where
  name : String
  entries : List (Label × Val)
  deriving DecidableEq, Repr

/-- A pandas DataFrame: ordered column names and rows, each row an index
label together with one cell per column. -/
structure DataFrame where
  colNames : List String
  rows : List (Label × List Val)
  deriving DecidableEq, Repr

/-- Well-formedness: every row has exactly one cell per column. -/
abbrev DataFrame.WF (d : DataFrame) : Prop :=
  ∀ r ∈ d.rows, r.2.length = d.colNames.length

/-- The cell of a row (given the frame's column names) under column `c`:
the first cell whose column is named `c`. -/
def lookupCell (names : List String) (cells : List Val) (c : String) : Val :=
  (((names.zip cells).find? (fun p => p.1 = c)).map Prod.snd).getD 0

/-- The row cells with every cell of a column named `c` removed. -/
def dropCells (names : List String) (cells : List Val) (c : String) : List Val :=
  ((names.zip cells).filter (fun p => ¬ p.1 = c)).map Prod.snd

/-- The values of column `c`, top to bottom. -/
def DataFrame.colValues (d : DataFrame) (c : String) : List Val :=
  d.rows.map (fun r => lookupCell d.colNames r.2 c)

/-- `data.drop(c, axis=1, inplace=inplace)` of pandas: fails with `KeyError`
when no column is named `c`; otherwise removes every column named `c`.
Returns the dropped frame together with the state of `data` after the call
(`data` itself when `inplace` is false, the dropped frame when true). -/
def pandas_drop (data : DataFrame) (c : String) (inplace : Bool) :
    Except PyError (DataFrame × DataFrame) :=
  if c ∈ data.colNames then
    let dropped : DataFrame :=
      { colNames := data.colNames.filter (fun nm => ¬ nm = c),
        rows := data.rows.map (fun r => (r.1, dropCells data.colNames r.2 c)) }
    .ok (dropped, if inplace then dropped else data)
  else
    .error .keyError

/-- `data[c]` of pandas on a frame: fails with `KeyError` when no column is
named `c`; otherwise the column as a Series carrying the frame's row index. -/
def pandas_getitem (data : DataFrame) (c : String) : Except PyError Series :=
  if c ∈ data.colNames then
    .ok { name := c,
          entries := data.rows.map (fun r => (r.1, lookupCell data.colNames r.2 c)) }
  else
    .error .keyError

/-- `split_feature_target` of `src/utils.py`: `X = data.drop(target_col, axis=1)`
(not in place), `y = data[target_col]`. Besides the pair `(X, y)` the embedding
returns the state of the input frame after the call. -/
def split_feature_target (data : DataFrame) (target_col : String) :
    Except PyError ((DataFrame × Series) × DataFrame) :=
  match pandas_drop data target_col false with
  | .error e => .error e
  | .ok (X, post) =>
    match pandas_getitem post target_col with
    | .error e => .error e
    | .ok y => .ok ((X, y), post)

/-- A Python object as restorable from a serialized file: a DataFrame, a
Series, or anything else, the latter carrying the name of its Python type. -/
inductive PyObj where
  | df : DataFrame → PyObj
  | series : Series → PyObj
  | other : String → PyObj
  deriving DecidableEq, Repr

/-- A `pd.DataFrame | pd.Series` argument. -/
inductive PdData where
  | frame : DataFrame → PdData
  | col : Series → PdData
  deriving DecidableEq, Repr

/-- The Python object a `PdData` is stored as. -/
def PdData.toObj : PdData → PyObj
  | .frame d => .df d
  | .col s => .series s

/-- The file system visible to the module: the set of directories and, for
each file path, the object pickled there. -/
structure FileSystem where
  dirs : List String
  files : List (String × PyObj)
  deriving DecidableEq, Repr

/-- `os.path.dirname` (POSIX): everything up to the last `/`, with trailing
slashes stripped unless the head is all slashes; `""` when there is no `/`. -/
def dirname (p : String) : String :=
  let rev := p.toList.reverse
  let headRev := rev.drop (rev.takeWhile (fun ch => ¬ ch = '/')).length
  let stripped :=
    if headRev ≠ [] ∧ headRev.any (fun ch => ¬ ch = '/') then
      headRev.dropWhile (fun ch => ch = '/')
    else headRev
  String.mk stripped.reverse

/-- `os.makedirs(d, exist_ok=True)`: records the directory (idempotently). -/
def makedirs (d : String) (fs : FileSystem) : FileSystem :=
  if d ∈ fs.dirs then fs else { fs with dirs := d :: fs.dirs }

/-- Modelled from the spec: `joblib.dump(data, filename=path, compress=3)`,
whose implementation is outside this repository. Per §6, the serialized file
is "capable of round-tripping the in-memory dataset/column representation
exactly": the model stores the object itself at `path`, shadowing any
previous file there. -/
def joblib_dump (obj : PyObj) (path : String) (fs : FileSystem) : FileSystem :=
  { fs with files := (path, obj) :: fs.files }

/-- Modelled from the spec: `joblib.load(path)`, whose implementation is
outside this repository; restores the object stored at `path`, failing with
a file-access error when the path holds no file. -/
def joblib_load (path : String) (fs : FileSystem) : Except PyError PyObj :=
  match fs.files.find? (fun e => e.1 = path) with
  | some e => .ok e.2
  | none => .error .fileNotFoundError

/-- `serialize_data` of `src/utils.py`: computes the parent directory of
`path`, creates it when (and only when) it is non-empty, then dumps `data`. -/
def serialize_data (data : PdData) (path : String) (fs : FileSystem) : FileSystem :=
  let parent_dir := dirname path
  let fs1 := if parent_dir ≠ "" then makedirs parent_dir fs else fs
  joblib_dump data.toObj path fs1

/-- `deserialize_data` of `src/utils.py`: loads the object at `path` and
raises `TypeError` naming the restored type unless it is a DataFrame or a
Series, in which case the object is returned unmodified. -/
def deserialize_data (path : String) (fs : FileSystem) : Except PyError PdData :=
  match joblib_load path fs with
  | .error e => .error e
  | .ok (.df d) => .ok (.frame d)
  | .ok (.series s) => .ok (.col s)
  | .ok (.other t) => .error (.typeError ("Expected DataFrame/Series, got " ++ t))

/-- The positions (0-based, offset by `i`) of the occurrences of `v` in a
value list. -/
def posOf : List Val → Val → ℕ → List ℕ
  | [], _, _ => []
  | w :: rest, v, i =>
    if w = v then i :: posOf rest v (i + 1) else posOf rest v (i + 1)

/-- The ceiling of a non-negative rational, as a natural number. -/
def ceilN (q : ℚ) : ℕ := ⌈q⌉₊

/-- Modelled from the spec: the per-class test-sample allocation of
scikit-learn's stratified splitter (not part of this repository). Classes are
processed in order of first appearance; the class starting at cumulative row
count `cum` and holding `c` rows receives `⌈f·(cum+c)⌉ - ⌈f·cum⌉` test
samples, so that counts telescope to `⌈f·n⌉` test rows in total while each
class's share stays within one row of exact proportionality. -/
def allocTest (f : ℚ) (vals : List Val) : List Val → ℕ → List (Val × ℕ)
  | [], _ => []
  | v :: rest, cum =>
    let c := vals.count v
    (v, ceilN (f * (cum + c : ℕ)) - ceilN (f * (cum : ℕ))) ::
      allocTest f vals rest (cum + c)

/-- Modelled from the spec: the stratified random row partition behind
`sklearn.model_selection.train_test_split(..., stratify=y)` (not part of this
repository). Within each class the positions are rotated by the seed and the
allocated head is held out for test; the pair is (test positions, train
positions). -/
def stratifiedPartition (vals : List Val) (f : ℚ) (s : ℕ) : List ℕ × List ℕ :=
  ((allocTest f vals vals.dedup 0).flatMap
      (fun p => (((posOf vals p.1 0).rotate s).take p.2)),
   (allocTest f vals vals.dedup 0).flatMap
      (fun p => (((posOf vals p.1 0).rotate s).drop p.2)))

/-- The rows sitting at the given positions, in that order. -/
def selectIdx (rows : List α) (ps : List ℕ) : List α :=
  ps.filterMap (fun i => rows.get? i)

/-- The sub-frame of the rows at the given positions. -/
def DataFrame.takeRows (X : DataFrame) (ps : List ℕ) : DataFrame :=
  { colNames := X.colNames, rows := selectIdx X.rows ps }

/-- The sub-series of the entries at the given positions. -/
def Series.takeRows (y : Series) (ps : List ℕ) : Series :=
  { name := y.name, entries := selectIdx y.entries ps }

/-- `split_train_test` of `src/utils.py`, delegating to the spec-modelled
`train_test_split(X, y, test_size, stratify=y, random_state)` of
scikit-learn: fails with an invalid-argument error when `test_size` is
outside `(0, 1)` or some class of `y` has fewer than 2 members; otherwise
partitions the rows per `stratifiedPartition`, seeded by `random_state` when
given and by the process-wide RNG state `globalRng` otherwise. -/
def split_train_test (X : DataFrame) (y : Series) (test_size : ℚ)
    (random_state : Option ℕ) (globalRng : ℕ) :
    Except PyError (DataFrame × DataFrame × Series × Series) :=
  let vals := y.entries.map Prod.snd
  if ¬ (0 < test_size ∧ test_size < 1) then .error .valueError
  else if vals.dedup.any (fun v => decide (vals.count v < 2)) then .error .valueError
  else
    let s := random_state.getD globalRng
    let part := stratifiedPartition vals test_size s
    .ok (X.takeRows part.2, X.takeRows part.1, y.takeRows part.2, y.takeRows part.1)

/-! ### Helper lemmas -/

lemma takeWhile_noslash (cs : List Char) (h : ∀ ch ∈ cs, ¬ ch = '/') :
    cs.takeWhile (fun ch => ¬ ch = '/') = cs := by
  induction cs with
  | nil => rfl
  | cons c rest ih =>
    have hc : ¬ c = '/' := h c (List.mem_cons_self c rest)
    rw [List.takeWhile_cons, if_pos (decide_eq_true hc)]
    exact congrArg (c :: ·) (ih (fun ch hch => h ch (List.mem_cons_of_mem _ hch)))

lemma filter_ne_length_lt {l : List String} {c : String} (h : c ∈ l) :
    (l.filter (fun nm => ¬ nm = c)).length < l.length := by
  rcases Nat.lt_or_ge (l.filter (fun nm => ¬ nm = c)).length l.length with hlt | hge
  · exact hlt
  · exfalso
    have hsub : (l.filter (fun nm => ¬ nm = c)).Sublist l := List.filter_sublist l
    have heq : l.filter (fun nm => ¬ nm = c) = l :=
      hsub.eq_of_length (Nat.le_antisymm hsub.length_le hge)
    have := List.mem_filter.mp (heq ▸ h)
    simp at this

/-! ### Claim theorems: serialization and feature/target splitting -/

/-- C1: serializing a dataset or column to a path and deserializing that path
restores an object equal to the original in values, column names, and row
index (the embedding's equality is full structural equality). -/
theorem serialize_deserialize_roundtrip (X : PdData) (p : String) (fs : FileSystem) :
    deserialize_data p (serialize_data X p fs) = .ok X := by
  cases X <;>
    simp [deserialize_data, serialize_data, joblib_dump, joblib_load, PdData.toObj,
      List.find?]

/-- C7: `deserialize_data` raises `TypeError`, naming the unexpected type,
exactly when the object restored from the file is neither a DataFrame nor a
Series; a restored DataFrame or Series is returned unmodified. -/
theorem deserialize_type_check (p : String) (fs : FileSystem) (obj : PyObj)
    (h : joblib_load p fs = .ok obj) :
    ((∃ m, deserialize_data p fs = .error (.typeError m)) ↔ ∃ t, obj = .other t) ∧
    (∀ t, obj = .other t →
      deserialize_data p fs = .error (.typeError ("Expected DataFrame/Series, got " ++ t))) ∧
    (∀ d, obj = .df d → deserialize_data p fs = .ok (.frame d)) ∧
    (∀ s, obj = .series s → deserialize_data p fs = .ok (.col s)) := by
  cases obj <;> simp [deserialize_data, h]

/-- C8: requesting a target column absent from the dataset makes
`split_feature_target` fail with a missing-key error. -/
theorem split_feature_target_missing_key (D : DataFrame) (c : String)
    (h : c ∉ D.colNames) :
    split_feature_target D c = .error .keyError := by
  simp [split_feature_target, pandas_drop, h]

/-- C9: `split_feature_target` leaves its input dataset unchanged (the
post-call state is the input itself, since the drop is not in place), and the
returned feature frame is a different object from the input. -/
theorem split_feature_target_no_mutation (D : DataFrame) (c : String)
    (h : c ∈ D.colNames) :
    ∃ F t, split_feature_target D c = .ok ((F, t), D) ∧ F ≠ D := by
  refine ⟨⟨D.colNames.filter (fun nm => ¬ nm = c),
          D.rows.map (fun r => (r.1, dropCells D.colNames r.2 c))⟩,
        ⟨c, D.rows.map (fun r => (r.1, lookupCell D.colNames r.2 c))⟩, ?_, ?_⟩
  · simp [split_feature_target, pandas_drop, pandas_getitem, h]
  · intro heq
    have hlen := congrArg (fun d => d.colNames.length) heq
    dsimp only at hlen
    exact absurd hlen (Nat.ne_of_lt (filter_ne_length_lt h))

/-- C10: on a bare filename (no `/` in the path) `serialize_data` skips the
directory-creation branch — `dirname` is empty and the directory set is
untouched — yet still writes the file; conversely the directory set changes
only when the parent is non-empty. -/
theorem serialize_data_bare_filename (X : PdData) (p : String) (fs : FileSystem) :
    (('/' : Char) ∉ p.toList →
      dirname p = "" ∧
      (serialize_data X p fs).dirs = fs.dirs ∧
      joblib_load p (serialize_data X p fs) = .ok X.toObj) ∧
    ((serialize_data X p fs).dirs ≠ fs.dirs → dirname p ≠ "") := by
  constructor
  · intro h
    have hdn : dirname p = "" := by
      have hall : p.toList.reverse.takeWhile (fun ch => ¬ ch = '/') = p.toList.reverse :=
        takeWhile_noslash _ (fun ch hch hc =>
          h (by simpa [hc] using (List.mem_reverse.mp hch)))
      simp only [dirname]
      rw [hall, List.drop_length]
      simp
    refine ⟨hdn, ?_, ?_⟩
    · simp [serialize_data, hdn, joblib_dump]
    · simp [serialize_data, hdn, joblib_dump, joblib_load, List.find?]
  · intro hch hdn
    apply hch
    simp [serialize_data, hdn, joblib_dump]

/-- C5: with the same non-None seed and identical inputs, two calls to
`split_train_test` return identical partitions regardless of the
process-wide RNG state. -/
theorem split_train_test_seed_deterministic (X : DataFrame) (y : Series)
    (f : ℚ) (s : ℕ) (g g' : ℕ) :
    split_train_test X y f (some s) g = split_train_test X y f (some s) g' := rfl

/-- C6: `split_train_test` fails with an invalid-argument error whenever the
test fraction is outside `(0, 1)` or some class of the target has fewer than
2 members. -/
theorem split_train_test_invalid_args (X : DataFrame) (y : Series) (f : ℚ)
    (rs : Option ℕ) (g : ℕ)
    (h : ¬ (0 < f ∧ f < 1) ∨
      ∃ v ∈ (y.entries.map Prod.snd).dedup, (y.entries.map Prod.snd).count v < 2) :
    split_train_test X y f rs g = .error .valueError := by
  by_cases hf : 0 < f ∧ f < 1
  · rcases h with h | h
    · exact absurd hf h
    · have hany : (y.entries.map Prod.snd).dedup.any
          (fun v => decide ((y.entries.map Prod.snd).count v < 2)) = true := by
        rcases h with ⟨v, hv, hlt⟩
        exact List.any_eq_true.mpr ⟨v, hv, decide_eq_true hlt⟩
      simp [split_train_test, hf, hany]
  · simp [split_train_test, hf]

/-! ### Witnesses -/

theorem deserialize_type_check_witness :
    joblib_load "f" (⟨[], [("f", .other "<class 'int'>")]⟩ : FileSystem) =
        .ok (.other "<class 'int'>") ∧
    deserialize_data "f" (⟨[], [("f", .other "<class 'int'>")]⟩ : FileSystem) =
      .error (.typeError ("Expected DataFrame/Series, got " ++ "<class 'int'>")) :=
  ⟨rfl,
   (deserialize_type_check "f" ⟨[], [("f", .other "<class 'int'>")]⟩
      (.other "<class 'int'>") rfl).2.1 "<class 'int'>" rfl⟩

theorem split_feature_target_missing_key_witness :
    "z" ∉ (⟨["x", "y"], [(0, [1, 2])]⟩ : DataFrame).colNames ∧
    split_feature_target ⟨["x", "y"], [(0, [1, 2])]⟩ "z" = .error .keyError :=
  ⟨by decide, split_feature_target_missing_key ⟨["x", "y"], [(0, [1, 2])]⟩ "z" (by decide)⟩

theorem split_feature_target_no_mutation_witness :
    "y" ∈ (⟨["x", "y"], [(0, [1, 2])]⟩ : DataFrame).colNames ∧
    ∃ F t, split_feature_target ⟨["x", "y"], [(0, [1, 2])]⟩ "y" =
        .ok ((F, t), (⟨["x", "y"], [(0, [1, 2])]⟩ : DataFrame)) ∧
      F ≠ (⟨["x", "y"], [(0, [1, 2])]⟩ : DataFrame) :=
  ⟨by decide, split_feature_target_no_mutation ⟨["x", "y"], [(0, [1, 2])]⟩ "y" (by decide)⟩

theorem serialize_data_bare_filename_witness :
    dirname "model.pkl" = "" ∧
    (serialize_data (.col ⟨"s", [(0, 5)]⟩) "model.pkl" ⟨[], []⟩).dirs =
      (⟨[], []⟩ : FileSystem).dirs ∧
    joblib_load "model.pkl" (serialize_data (.col ⟨"s", [(0, 5)]⟩) "model.pkl" ⟨[], []⟩) =
      .ok (PdData.col ⟨"s", [(0, 5)]⟩).toObj :=
  (serialize_data_bare_filename (.col ⟨"s", [(0, 5)]⟩) "model.pkl" ⟨[], []⟩).1 (by decide)

theorem split_train_test_invalid_args_witness :
    split_train_test ⟨["x"], [(0, [1])]⟩ ⟨"t", [(0, 1)]⟩ (3/2) none 0 =
      .error .valueError :=
  split_train_test_invalid_args _ _ _ _ _ (Or.inl (by norm_num))

/-! ### Column lookup under drop (for C4) -/

lemma filter_map_comm (l : List α) (f : α → β) (q : β → Bool) :
    (l.map f).filter q = (l.filter (fun x => q (f x))).map f := by
  induction l with
  | nil => rfl
  | cons a l ih =>
    by_cases hq : q (f a)
    · simp [List.filter_cons, hq, ih]
    · simp [List.filter_cons, hq, ih]

lemma zip_map_fst_snd (l : List (α × β)) :
    (l.map Prod.fst).zip (l.map Prod.snd) = l := by
  induction l with
  | nil => rfl
  | cons a l ih => simp [List.zip_cons_cons, ih]

lemma find?_filter_of_imp (l : List α) (r p : α → Bool)
    (h : ∀ x, r x = true → p x = true) :
    (l.filter p).find? r = l.find? r := by
  induction l with
  | nil => rfl
  | cons a l ih =>
    by_cases hr : r a = true
    · rw [List.filter_cons, if_pos (h a hr)]
      rw [List.find?_cons_of_pos _ hr, List.find?_cons_of_pos _ hr]
    · by_cases hp : p a = true
      · rw [List.filter_cons, if_pos hp, List.find?_cons_of_neg _ (by simp [hr]),
          List.find?_cons_of_neg _ (by simp [hr])]
        exact ih
      · rw [List.filter_cons, if_neg hp, List.find?_cons_of_neg _ (by simp [hr])]
        exact ih

lemma lookupCell_dropCells (names : List String) (cells : List Val) (c nm : String)
    (hlen : cells.length = names.length) (hnm : ¬ nm = c) :
    lookupCell (names.filter (fun x => ¬ x = c)) (dropCells names cells c) nm =
      lookupCell names cells nm := by
  have hle : names.length ≤ cells.length := le_of_eq hlen.symm
  have h1 : names.filter (fun x => ¬ x = c) =
      ((names.zip cells).filter (fun p => ¬ p.1 = c)).map Prod.fst := by
    conv_lhs => rw [← List.map_fst_zip names cells hle]
    exact filter_map_comm _ _ _
  unfold lookupCell dropCells
  rw [h1, zip_map_fst_snd, find?_filter_of_imp]
  intro x hx
  simp only [decide_eq_true_eq] at hx ⊢
  exact fun hxc => hnm (hx.symm.trans hxc)

/-- C4: on a well-formed dataset with distinct column names containing `c`,
`split_feature_target` returns Features holding exactly the columns other
than `c` in their original order with their values intact, and a Target
holding exactly column `c`'s values; both carry the dataset's row index. -/
theorem split_feature_target_spec (D : DataFrame) (c : String)
    (hc : c ∈ D.colNames) (hwf : D.WF) :
    ∃ F t post, split_feature_target D c = .ok ((F, t), post) ∧
      F.colNames = D.colNames.filter (fun nm => ¬ nm = c) ∧
      (∀ nm ∈ F.colNames, F.colValues nm = D.colValues nm) ∧
      F.rows.map Prod.fst = D.rows.map Prod.fst ∧
      t.name = c ∧
      t.entries.map Prod.fst = D.rows.map Prod.fst ∧
      t.entries.map Prod.snd = D.colValues c := by
  refine ⟨⟨D.colNames.filter (fun nm => ¬ nm = c),
          D.rows.map (fun r => (r.1, dropCells D.colNames r.2 c))⟩,
        ⟨c, D.rows.map (fun r => (r.1, lookupCell D.colNames r.2 c))⟩, D,
        ?_, rfl, ?_, ?_, rfl, ?_, ?_⟩
  · simp [split_feature_target, pandas_drop, pandas_getitem, hc]
  · intro nm hmem
    have hnm : ¬ nm = c := by
      have := (List.mem_filter.mp hmem).2
      simpa using this
    unfold DataFrame.colValues
    simp only [List.map_map]
    apply List.map_congr_left
    intro r hr
    exact lookupCell_dropCells D.colNames r.2 c nm (hwf r hr) hnm
  · simp
  · simp
  · simp [DataFrame.colValues]

theorem split_feature_target_spec_witness :
    "t" ∈ (⟨["x", "t"], [(0, [1, 2]), (1, [3, 4])]⟩ : DataFrame).colNames ∧
    (∃ F t post,
      split_feature_target (⟨["x", "t"], [(0, [1, 2]), (1, [3, 4])]⟩ : DataFrame) "t" =
          .ok ((F, t), post) ∧
      F.colNames = (⟨["x", "t"], [(0, [1, 2]), (1, [3, 4])]⟩ : DataFrame).colNames.filter
          (fun nm => ¬ nm = "t") ∧
      (∀ nm ∈ F.colNames, F.colValues nm =
        DataFrame.colValues ⟨["x", "t"], [(0, [1, 2]), (1, [3, 4])]⟩ nm) ∧
      F.rows.map Prod.fst =
        (⟨["x", "t"], [(0, [1, 2]), (1, [3, 4])]⟩ : DataFrame).rows.map Prod.fst ∧
      t.name = "t" ∧
      t.entries.map Prod.fst =
        (⟨["x", "t"], [(0, [1, 2]), (1, [3, 4])]⟩ : DataFrame).rows.map Prod.fst ∧
      t.entries.map Prod.snd =
        DataFrame.colValues ⟨["x", "t"], [(0, [1, 2]), (1, [3, 4])]⟩ "t") :=
  ⟨by decide,
   split_feature_target_spec ⟨["x", "t"], [(0, [1, 2]), (1, [3, 4])]⟩ "t"
     (by decide) (by decide)⟩

/-! ### Position lists (for C2/C3) -/

lemma posOf_length (l : List Val) (v : Val) : ∀ i, (posOf l v i).length = l.count v := by
  induction l with
  | nil => intro i; simp [posOf]
  | cons w rest ih =>
    intro i
    by_cases hw : w = v
    · simp [posOf, hw, ih, List.count_cons]
    · simp [posOf, hw, ih, List.count_cons]

lemma posOf_ge (l : List Val) (v : Val) : ∀ i, ∀ j ∈ posOf l v i, i ≤ j := by
  induction l with
  | nil => intro i j hj; simp [posOf] at hj
  | cons w rest ih =>
    intro i j hj
    by_cases hw : w = v
    · rw [posOf, if_pos hw] at hj
      rcases List.mem_cons.mp hj with h | h
      · exact h ▸ le_refl i
      · exact le_trans (Nat.le_succ i) (ih (i + 1) j h)
    · rw [posOf, if_neg hw] at hj
      exact le_trans (Nat.le_succ i) (ih (i + 1) j hj)

lemma posOf_pairwise (l : List Val) (v : Val) :
    ∀ i, (posOf l v i).Pairwise (· < ·) := by
  induction l with
  | nil => intro i; simp [posOf]
  | cons w rest ih =>
    intro i
    by_cases hw : w = v
    · rw [posOf, if_pos hw]
      exact List.Pairwise.cons
        (fun j hj => Nat.lt_of_lt_of_le (Nat.lt_succ_self i) (posOf_ge rest v (i + 1) j hj))
        (ih (i + 1))
    · rw [posOf, if_neg hw]
      exact ih (i + 1)

lemma posOf_nodup (l : List Val) (v : Val) (i : ℕ) : (posOf l v i).Nodup :=
  (posOf_pairwise l v i).imp (fun h => Nat.ne_of_lt h)

lemma posOf_shift (l : List Val) (v : Val) :
    ∀ i, posOf l v (i + 1) = (posOf l v i).map (· + 1) := by
  induction l with
  | nil => intro i; simp [posOf]
  | cons w rest ih =>
    intro i
    by_cases hw : w = v
    · rw [posOf, if_pos hw, posOf, if_pos hw, ih (i + 1)]
      simp
    · rw [posOf, if_neg hw, posOf, if_neg hw, ih (i + 1)]

lemma mem_posOf_zero (l : List Val) (v : Val) : ∀ j, j ∈ posOf l v 0 ↔ l.get? j = some v := by
  induction l with
  | nil => intro j; simp [posOf]
  | cons w rest ih =>
    intro j
    cases j with
    | zero =>
      by_cases hw : w = v
      · simp [posOf, hw, posOf_shift]
      · simp [posOf, hw, posOf_shift]
    | succ k =>
      by_cases hw : w = v
      · simp only [posOf, if_pos hw, List.mem_cons, posOf_shift rest v 0]
        simp [ih k, Nat.succ_ne_zero]
      · simp only [posOf, if_neg hw, posOf_shift rest v 0]
        simp [ih k]

lemma mem_posOf_lt (l : List Val) (v : Val) (j : ℕ) (h : j ∈ posOf l v 0) :
    j < l.length := by
  obtain ⟨hlt, -⟩ := List.get?_eq_some.mp ((mem_posOf_zero l v j).mp h)
  exact hlt

lemma posOf_disjoint (l : List Val) {v w : Val} (hvw : v ≠ w) :
    (posOf l v 0).Disjoint (posOf l w 0) := by
  intro j hjv hjw
  have h1 := (mem_posOf_zero l v j).mp hjv
  have h2 := (mem_posOf_zero l w j).mp hjw
  exact hvw (Option.some.inj (h1.symm.trans h2))

lemma flatMap_posOf_perm (vals : List Val) :
    List.Perm (vals.dedup.flatMap (fun v => posOf vals v 0)) (List.range vals.length) := by
  apply (List.perm_ext_iff_of_nodup ?_ (List.nodup_range _)).mpr
  · intro j
    rw [List.mem_flatMap, List.mem_range]
    constructor
    · rintro ⟨v, -, hj⟩
      exact mem_posOf_lt vals v j hj
    · intro hj
      refine ⟨vals.get ⟨j, hj⟩, List.mem_dedup.mpr (List.get_mem vals j hj), ?_⟩
      exact (mem_posOf_zero vals _ j).mpr (List.get?_eq_get hj)
  · apply List.nodup_flatMap.mpr
    refine ⟨fun v _ => posOf_nodup vals v 0, ?_⟩
    exact (List.nodup_dedup vals).imp (fun hvw => posOf_disjoint vals hvw)

/-! ### Partition permutation (for C2/C3) -/

lemma flatMap_perm_congr (al : List α) (g h : α → List β)
    (hgh : ∀ a ∈ al, List.Perm (g a) (h a)) :
    List.Perm (al.flatMap g) (al.flatMap h) := by
  induction al with
  | nil => simp
  | cons a al ih =>
    simp only [List.flatMap_cons]
    exact (hgh a (List.mem_cons_self a al)).append
      (ih (fun b hb => hgh b (List.mem_cons_of_mem a hb)))

lemma flatMap_take_append_drop_perm (al : List α) (g : α → List β) (t : α → ℕ) :
    List.Perm
      ((al.flatMap fun a => (g a).take (t a)) ++ (al.flatMap fun a => (g a).drop (t a)))
      (al.flatMap g) := by
  induction al with
  | nil => simp
  | cons a al ih =>
    simp only [List.flatMap_cons]
    rw [List.append_assoc]
    refine List.Perm.trans
      (List.Perm.append_left _ (List.perm_append_comm_assoc _ _ _)) ?_
    rw [← List.append_assoc, List.take_append_drop]
    exact List.Perm.append_left (g a) ih

lemma allocTest_fst (f : ℚ) (vals : List Val) :
    ∀ cls cum, (allocTest f vals cls cum).map Prod.fst = cls := by
  intro cls
  induction cls with
  | nil => intro cum; rfl
  | cons v rest ih => intro cum; simp only [allocTest, List.map_cons, ih]

lemma stratifiedPartition_perm (vals : List Val) (f : ℚ) (s : ℕ) :
    List.Perm ((stratifiedPartition vals f s).1 ++ (stratifiedPartition vals f s).2)
      (List.range vals.length) := by
  unfold stratifiedPartition
  refine List.Perm.trans
    (flatMap_take_append_drop_perm (allocTest f vals vals.dedup 0)
      (fun p => (posOf vals p.1 0).rotate s) (fun p => p.2)) ?_
  refine List.Perm.trans
    (flatMap_perm_congr (allocTest f vals vals.dedup 0)
      (fun p => (posOf vals p.1 0).rotate s) (fun p => posOf vals p.1 0)
      (fun p _ => List.rotate_perm _ s)) ?_
  have h := List.flatMap_map (f := Prod.fst)
    (g := fun v => posOf vals v 0) (l := allocTest f vals vals.dedup 0)
  rw [allocTest_fst] at h
  rw [← h]
  exact flatMap_posOf_perm vals

/-! ### Row selection (for C2/C3) -/

lemma selectIdx_append (rows : List α) (ps qs : List ℕ) :
    selectIdx rows (ps ++ qs) = selectIdx rows ps ++ selectIdx rows qs := by
  unfold selectIdx
  rw [List.filterMap_append]

lemma selectIdx_perm (rows : List α) {ps qs : List ℕ} (h : List.Perm ps qs) :
    List.Perm (selectIdx rows ps) (selectIdx rows qs) :=
  h.filterMap _

lemma selectIdx_range (rows : List α) :
    selectIdx rows (List.range rows.length) = rows := by
  induction rows with
  | nil => rfl
  | cons a rows ih =>
    rw [List.length_cons, List.range_succ_eq_map]
    simp only [selectIdx, List.length_cons, List.filterMap_cons, List.filterMap_map,
      List.get?_eq_getElem?, List.getElem?_cons_zero, Function.comp_def,
      List.getElem?_cons_succ] at ih ⊢
    rw [ih]

lemma selectIdx_map (rows : List α) (g : α → β) (ps : List ℕ) :
    (selectIdx rows ps).map g = selectIdx (rows.map g) ps := by
  unfold selectIdx
  rw [List.map_filterMap]
  apply List.filterMap_congr
  intro i _
  rw [List.get?_map]

lemma selectIdx_length (rows : List α) (ps : List ℕ)
    (h : ∀ i ∈ ps, i < rows.length) :
    (selectIdx rows ps).length = ps.length := by
  induction ps with
  | nil => rfl
  | cons i ps ih =>
    have hget := List.get?_eq_get (h i (List.mem_cons_self i ps))
    simp only [selectIdx, List.filterMap_cons, hget, List.length_cons] at ih ⊢
    exact congrArg (· + 1) (ih (fun j hj => h j (List.mem_cons_of_mem i hj)))

lemma selectIdx_partition_perm (vals : List Val) (f : ℚ) (s : ℕ) (rows : List α)
    (h : rows.length = vals.length) :
    List.Perm (selectIdx rows (stratifiedPartition vals f s).1 ++
        selectIdx rows (stratifiedPartition vals f s).2) rows := by
  rw [← selectIdx_append]
  refine List.Perm.trans (selectIdx_perm rows (stratifiedPartition_perm vals f s)) ?_
  rw [← h, selectIdx_range]

lemma split_train_test_ok (X : DataFrame) (y : Series) (f : ℚ) (rs : Option ℕ) (g : ℕ)
    (hf : 0 < f ∧ f < 1)
    (hmin : ∀ v ∈ (y.entries.map Prod.snd).dedup,
      ¬ (y.entries.map Prod.snd).count v < 2) :
    split_train_test X y f rs g = .ok
      (X.takeRows (stratifiedPartition (y.entries.map Prod.snd) f (rs.getD g)).2,
       X.takeRows (stratifiedPartition (y.entries.map Prod.snd) f (rs.getD g)).1,
       y.takeRows (stratifiedPartition (y.entries.map Prod.snd) f (rs.getD g)).2,
       y.takeRows (stratifiedPartition (y.entries.map Prod.snd) f (rs.getD g)).1) := by
  have hany : (y.entries.map Prod.snd).dedup.any
      (fun v => decide ((y.entries.map Prod.snd).count v < 2)) = false := by
    apply List.any_eq_false.mpr
    intro v hv
    simpa using hmin v hv
  simp [split_train_test, hf, hany]

/-- C2: on valid inputs sharing a duplicate-free row index, the train and
test outputs of `split_train_test` carry disjoint label lists whose
concatenation is a permutation of the full input row index (so the union of
the output indices is the input index and the original labels are kept), and
the feature outputs are row-aligned with the target outputs. -/
theorem split_train_test_partition (X : DataFrame) (y : Series) (f : ℚ)
    (rs : Option ℕ) (g : ℕ)
    (hf : 0 < f ∧ f < 1)
    (hmin : ∀ v ∈ (y.entries.map Prod.snd).dedup,
      2 ≤ (y.entries.map Prod.snd).count v)
    (hlab : X.rows.map Prod.fst = y.entries.map Prod.fst)
    (hnd : (y.entries.map Prod.fst).Nodup) :
    ∃ Xtr Xte ytr yte,
      split_train_test X y f rs g = .ok (Xtr, Xte, ytr, yte) ∧
      (yte.entries.map Prod.fst).Disjoint (ytr.entries.map Prod.fst) ∧
      List.Perm (yte.entries.map Prod.fst ++ ytr.entries.map Prod.fst)
        (y.entries.map Prod.fst) ∧
      Xtr.rows.map Prod.fst = ytr.entries.map Prod.fst ∧
      Xte.rows.map Prod.fst = yte.entries.map Prod.fst := by
  have hperm : List.Perm
      (selectIdx (y.entries.map Prod.fst)
          (stratifiedPartition (y.entries.map Prod.snd) f (rs.getD g)).1 ++
        selectIdx (y.entries.map Prod.fst)
          (stratifiedPartition (y.entries.map Prod.snd) f (rs.getD g)).2)
      (y.entries.map Prod.fst) :=
    selectIdx_partition_perm (y.entries.map Prod.snd) f (rs.getD g)
      (y.entries.map Prod.fst) (by simp)
  refine ⟨_, _, _, _,
    split_train_test_ok X y f rs g hf (fun v hv => not_lt.mpr (hmin v hv)),
    ?_, ?_, ?_, ?_⟩
  · have hnodup : ((selectIdx (y.entries.map Prod.fst)
        (stratifiedPartition (y.entries.map Prod.snd) f (rs.getD g)).1 ++
      selectIdx (y.entries.map Prod.fst)
        (stratifiedPartition (y.entries.map Prod.snd) f (rs.getD g)).2)).Nodup :=
      hperm.nodup_iff.mpr hnd
    have hdisj := (List.nodup_append.mp hnodup).2.2
    simpa [Series.takeRows, selectIdx_map] using hdisj
  · simpa [Series.takeRows, selectIdx_map] using hperm
  · simp [Series.takeRows, DataFrame.takeRows, selectIdx_map, hlab]
  · simp [Series.takeRows, DataFrame.takeRows, selectIdx_map, hlab]

theorem split_train_test_partition_witness :
    ∃ Xtr Xte ytr yte,
      split_train_test ⟨["a"], [(0, [10]), (1, [20]), (2, [30]), (3, [40])]⟩
          ⟨"t", [(0, 1), (1, 0), (2, 1), (3, 0)]⟩ (1/2) (some 1) 0 =
        .ok (Xtr, Xte, ytr, yte) ∧
      (yte.entries.map Prod.fst).Disjoint (ytr.entries.map Prod.fst) ∧
      List.Perm (yte.entries.map Prod.fst ++ ytr.entries.map Prod.fst)
        ((⟨"t", [(0, 1), (1, 0), (2, 1), (3, 0)]⟩ : Series).entries.map Prod.fst) ∧
      Xtr.rows.map Prod.fst = ytr.entries.map Prod.fst ∧
      Xte.rows.map Prod.fst = yte.entries.map Prod.fst :=
  split_train_test_partition
    ⟨["a"], [(0, [10]), (1, [20]), (2, [30]), (3, [40])]⟩
    ⟨"t", [(0, 1), (1, 0), (2, 1), (3, 0)]⟩ (1/2) (some 1) 0
    (by norm_num) (by decide) (by decide) (by decide)

/-! ### Allocation arithmetic (for C3) -/

lemma ceilN_le_ceilN {p q : ℚ} (h : p ≤ q) : ceilN p ≤ ceilN q :=
  Nat.ceil_le_ceil h

lemma ceilN_step_mono (f : ℚ) (hf0 : 0 ≤ f) (cum c : ℕ) :
    ceilN (f * (cum : ℚ)) ≤ ceilN (f * ((cum + c : ℕ) : ℚ)) :=
  ceilN_le_ceilN (mul_le_mul_of_nonneg_left (by push_cast; linarith) hf0)

lemma allocTest_le_count (f : ℚ) (hf0 : 0 ≤ f) (hf1 : f ≤ 1) (vals : List Val) :
    ∀ (cls : List Val) (cum : ℕ), ∀ p ∈ allocTest f vals cls cum,
      p.2 ≤ vals.count p.1 := by
  intro cls
  induction cls with
  | nil => intro cum p hp; simp [allocTest] at hp
  | cons v rest ih =>
    intro cum p hp
    simp only [allocTest, List.mem_cons] at hp
    rcases hp with h | h
    · subst h
      dsimp only
      have hc0 : (0 : ℚ) ≤ f * (cum : ℚ) := mul_nonneg hf0 (Nat.cast_nonneg cum)
      have hle : f * ((cum + vals.count v : ℕ) : ℚ) ≤
          f * (cum : ℚ) + (vals.count v : ℕ) := by
        push_cast
        nlinarith [mul_nonneg (sub_nonneg.mpr hf1) (Nat.cast_nonneg (vals.count v))]
      have h1 : ceilN (f * ((cum + vals.count v : ℕ) : ℚ)) ≤
          ceilN (f * (cum : ℚ)) + vals.count v := by
        refine le_trans (ceilN_le_ceilN hle) ?_
        simp only [ceilN]
        exact le_of_eq (Nat.ceil_add_nat hc0 _)
      omega
    · exact ih (cum + vals.count v) p h

lemma allocTest_sum (f : ℚ) (hf0 : 0 ≤ f) (vals : List Val) :
    ∀ (cls : List Val) (cum : ℕ),
      ((allocTest f vals cls cum).map Prod.snd).sum =
        ceilN (f * ((cum + (cls.map (fun v => vals.count v)).sum : ℕ) : ℚ)) -
          ceilN (f * (cum : ℚ)) := by
  intro cls
  induction cls with
  | nil =>
    intro cum
    simp only [allocTest, List.map_nil, List.sum_nil, Nat.add_zero]
    omega
  | cons v rest ih =>
    intro cum
    simp only [allocTest, List.map_cons, List.sum_cons]
    rw [ih (cum + vals.count v)]
    have m1 := ceilN_step_mono f hf0 cum (vals.count v)
    have m2 := ceilN_step_mono f hf0 (cum + vals.count v)
      ((rest.map (fun v => vals.count v)).sum)
    rw [← Nat.add_assoc]
    omega

lemma allocTest_bound (f : ℚ) (hf0 : 0 ≤ f) (vals : List Val) :
    ∀ (cls : List Val) (cum : ℕ), ∀ p ∈ allocTest f vals cls cum,
      |(p.2 : ℚ) - f * (vals.count p.1 : ℚ)| ≤ 1 := by
  intro cls
  induction cls with
  | nil => intro cum p hp; simp [allocTest] at hp
  | cons v rest ih =>
    intro cum p hp
    simp only [allocTest, List.mem_cons] at hp
    rcases hp with h | h
    · subst h
      dsimp only
      have hmono : ceilN (f * (cum : ℚ)) ≤ ceilN (f * ((cum + vals.count v : ℕ) : ℚ)) :=
        ceilN_step_mono f hf0 cum (vals.count v)
      simp only [ceilN] at hmono ⊢
      have h0a : (0 : ℚ) ≤ f * (cum : ℚ) := mul_nonneg hf0 (Nat.cast_nonneg _)
      have h0b : (0 : ℚ) ≤ f * ((cum + vals.count v : ℕ) : ℚ) :=
        mul_nonneg hf0 (Nat.cast_nonneg _)
      have hb_eq : f * ((cum + vals.count v : ℕ) : ℚ) =
          f * (cum : ℚ) + f * (vals.count v : ℚ) := by push_cast; ring
      have l1 : f * (cum : ℚ) ≤ (⌈f * (cum : ℚ)⌉₊ : ℚ) := Nat.le_ceil _
      have l2 : ((⌈f * (cum : ℚ)⌉₊ : ℕ) : ℚ) < f * (cum : ℚ) + 1 :=
        Nat.ceil_lt_add_one h0a
      have l3 : f * ((cum + vals.count v : ℕ) : ℚ) ≤
          (⌈f * ((cum + vals.count v : ℕ) : ℚ)⌉₊ : ℚ) := Nat.le_ceil _
      have l4 : ((⌈f * ((cum + vals.count v : ℕ) : ℚ)⌉₊ : ℕ) : ℚ) <
          f * ((cum + vals.count v : ℕ) : ℚ) + 1 := Nat.ceil_lt_add_one h0b
      rw [abs_le]
      constructor
      · rw [Nat.cast_sub hmono]; linarith
      · rw [Nat.cast_sub hmono]; linarith
    · exact ih (cum + vals.count v) p h

/-! ### Per-class counting in the test partition (for C3) -/

lemma selectIdx_const (rows : List α) (w : α) (ps : List ℕ)
    (h : ∀ i ∈ ps, rows.get? i = some w) :
    selectIdx rows ps = List.replicate ps.length w := by
  induction ps with
  | nil => rfl
  | cons i ps ih =>
    simp only [selectIdx, List.filterMap_cons, h i (List.mem_cons_self i ps),
      List.length_cons, List.replicate_succ] at ih ⊢
    exact congrArg (w :: ·) (ih (fun j hj => h j (List.mem_cons_of_mem i hj)))

lemma takeBlock_eq_replicate (vals : List Val) (s : ℕ) (w : Val) (t : ℕ)
    (hle : t ≤ vals.count w) :
    selectIdx vals (((posOf vals w 0).rotate s).take t) = List.replicate t w := by
  have hmem : ∀ i ∈ ((posOf vals w 0).rotate s).take t, vals.get? i = some w := by
    intro i hi
    exact (mem_posOf_zero vals w i).mp (List.mem_rotate.mp (List.mem_of_mem_take hi))
  rw [selectIdx_const vals w _ hmem, List.length_take, List.length_rotate,
    posOf_length, min_eq_left hle]

lemma count_flatMap_notmem (vals : List Val) (s : ℕ) (v : Val) :
    ∀ (al : List (Val × ℕ)), (∀ p ∈ al, p.2 ≤ vals.count p.1) →
      v ∉ al.map Prod.fst →
      (selectIdx vals (al.flatMap
        (fun p => ((posOf vals p.1 0).rotate s).take p.2))).count v = 0 := by
  intro al
  induction al with
  | nil => intro _ _; rfl
  | cons p al ih =>
    intro hle hv
    rw [List.map_cons, List.mem_cons] at hv
    push_neg at hv
    rw [List.flatMap_cons, selectIdx_append, List.count_append,
      takeBlock_eq_replicate vals s p.1 p.2 (hle p (List.mem_cons_self p al)),
      List.count_replicate]
    have hne : ¬ ((p.1 == v) = true) := by
      simp only [beq_iff_eq]
      exact fun h => hv.1 h.symm
    rw [if_neg hne]
    rw [ih (fun q hq => hle q (List.mem_cons_of_mem p hq)) hv.2]

lemma count_flatMap_mem (vals : List Val) (s : ℕ) (v : Val) (t : ℕ) :
    ∀ (al : List (Val × ℕ)), (al.map Prod.fst).Nodup →
      (∀ p ∈ al, p.2 ≤ vals.count p.1) → (v, t) ∈ al →
      (selectIdx vals (al.flatMap
        (fun p => ((posOf vals p.1 0).rotate s).take p.2))).count v = t := by
  intro al
  induction al with
  | nil => intro _ _ hmem; simp at hmem
  | cons p al ih =>
    intro hnd hle hmem
    rw [List.map_cons, List.nodup_cons] at hnd
    rw [List.flatMap_cons, selectIdx_append, List.count_append,
      takeBlock_eq_replicate vals s p.1 p.2 (hle p (List.mem_cons_self p al)),
      List.count_replicate]
    rcases List.mem_cons.mp hmem with h | h
    · have hp1 : p.1 = v := by rw [← h]
      have hp2 : p.2 = t := by rw [← h]
      rw [if_pos (by simp [hp1]), hp2,
        count_flatMap_notmem vals s v al
          (fun q hq => hle q (List.mem_cons_of_mem p hq)) (hp1 ▸ hnd.1)]
      omega
    · have hp1 : ¬ p.1 = v := by
        intro hpv
        exact hnd.1 (hpv ▸ List.mem_map_of_mem Prod.fst h)
      rw [if_neg (by simp [hp1])]
      rw [ih hnd.2 (fun q hq => hle q (List.mem_cons_of_mem p hq)) h]
      omega

lemma stratified_test_count (vals : List Val) (f : ℚ) (s : ℕ)
    (hf0 : 0 ≤ f) (hf1 : f ≤ 1) (v : Val) (hv : v ∈ vals.dedup) :
    ∃ t, (v, t) ∈ allocTest f vals vals.dedup 0 ∧
      (selectIdx vals (stratifiedPartition vals f s).1).count v = t := by
  have hvals : v ∈ (allocTest f vals vals.dedup 0).map Prod.fst := by
    rw [allocTest_fst]; exact hv
  obtain ⟨p, hp, hpv⟩ := List.mem_map.mp hvals
  refine ⟨p.2, by rwa [show (v, p.2) = p from by rw [← hpv]], ?_⟩
  unfold stratifiedPartition
  exact count_flatMap_mem vals s v p.2 (allocTest f vals vals.dedup 0)
    (by rw [allocTest_fst]; exact List.nodup_dedup vals)
    (allocTest_le_count f hf0 hf1 vals vals.dedup 0)
    (by rwa [show (v, p.2) = p from by rw [← hpv]])

lemma stratified_test_length (vals : List Val) (f : ℚ) (s : ℕ)
    (hf0 : 0 ≤ f) (hf1 : f ≤ 1) :
    (stratifiedPartition vals f s).1.length = ceilN (f * (vals.length : ℚ)) := by
  unfold stratifiedPartition
  dsimp only
  rw [List.length_flatMap]
  have hmap : (allocTest f vals vals.dedup 0).map
      (fun p => (((posOf vals p.1 0).rotate s).take p.2).length) =
      (allocTest f vals vals.dedup 0).map Prod.snd := by
    apply List.map_congr_left
    intro p hp
    rw [List.length_take, List.length_rotate, posOf_length,
      min_eq_left (allocTest_le_count f hf0 hf1 vals vals.dedup 0 p hp)]
  simp only [Function.comp_def]
  rw [hmap, allocTest_sum f hf0 vals vals.dedup 0,
    List.sum_map_count_dedup_eq_length]
  simp [ceilN]

lemma mem_testPositions_lt (vals : List Val) (f : ℚ) (s : ℕ) (i : ℕ)
    (hi : i ∈ (stratifiedPartition vals f s).1) : i < vals.length :=
  List.mem_range.mp
    ((stratifiedPartition_perm vals f s).mem_iff.mp (List.mem_append_left _ hi))

/-- C3: on valid inputs, stratification holds: in the test partition each
class's count is within one row of `f` times its full count, in the train
partition within one row of `1 - f` times it, and the test partition size is
within one row of `f` times the total row count. -/
theorem split_train_test_stratified (X : DataFrame) (y : Series) (f : ℚ)
    (rs : Option ℕ) (g : ℕ)
    (hf : 0 < f ∧ f < 1)
    (hmin : ∀ v ∈ (y.entries.map Prod.snd).dedup,
      2 ≤ (y.entries.map Prod.snd).count v) :
    ∃ Xtr Xte ytr yte,
      split_train_test X y f rs g = .ok (Xtr, Xte, ytr, yte) ∧
      (∀ v ∈ (y.entries.map Prod.snd).dedup,
        |((yte.entries.map Prod.snd).count v : ℚ) -
            f * ((y.entries.map Prod.snd).count v : ℚ)| ≤ 1 ∧
        |((ytr.entries.map Prod.snd).count v : ℚ) -
            (1 - f) * ((y.entries.map Prod.snd).count v : ℚ)| ≤ 1) ∧
      |(yte.entries.length : ℚ) - f * (y.entries.length : ℚ)| < 1 := by
  obtain ⟨hf0, hf1⟩ := hf
  refine ⟨_, _, _, _,
    split_train_test_ok X y f rs g ⟨hf0, hf1⟩ (fun v hv => not_lt.mpr (hmin v hv)),
    ?_, ?_⟩
  · intro v hv
    have hyte : (Series.takeRows y
        (stratifiedPartition (y.entries.map Prod.snd) f (rs.getD g)).1).entries.map
          Prod.snd =
        selectIdx (y.entries.map Prod.snd)
          (stratifiedPartition (y.entries.map Prod.snd) f (rs.getD g)).1 := by
      simp [Series.takeRows, selectIdx_map]
    have hytr : (Series.takeRows y
        (stratifiedPartition (y.entries.map Prod.snd) f (rs.getD g)).2).entries.map
          Prod.snd =
        selectIdx (y.entries.map Prod.snd)
          (stratifiedPartition (y.entries.map Prod.snd) f (rs.getD g)).2 := by
      simp [Series.takeRows, selectIdx_map]
    obtain ⟨t, htmem, htcount⟩ := stratified_test_count (y.entries.map Prod.snd) f
      (rs.getD g) hf0.le hf1.le v hv
    have hbound := allocTest_bound f hf0.le (y.entries.map Prod.snd)
      (y.entries.map Prod.snd).dedup 0 (v, t) htmem
    dsimp only at hbound
    have hperm := selectIdx_partition_perm (y.entries.map Prod.snd) f (rs.getD g)
      (y.entries.map Prod.snd) rfl
    have hcnt := hperm.count_eq v
    rw [List.count_append, htcount] at hcnt
    constructor
    · rw [hyte, htcount]
      exact hbound
    · rw [hytr]
      have hcastc : ((y.entries.map Prod.snd).count v : ℚ) =
          (t : ℚ) + ((selectIdx (y.entries.map Prod.snd)
            (stratifiedPartition (y.entries.map Prod.snd) f (rs.getD g)).2).count v : ℚ) := by
        exact_mod_cast hcnt.symm
      have heq : ((selectIdx (y.entries.map Prod.snd)
            (stratifiedPartition (y.entries.map Prod.snd) f (rs.getD g)).2).count v : ℚ) -
          (1 - f) * ((y.entries.map Prod.snd).count v : ℚ) =
          -((t : ℚ) - f * ((y.entries.map Prod.snd).count v : ℚ)) := by
        rw [hcastc]; ring
      rw [heq, abs_neg]
      exact hbound
  · have hlen : (Series.takeRows y
        (stratifiedPartition (y.entries.map Prod.snd) f (rs.getD g)).1).entries.length =
        ceilN (f * ((y.entries.map Prod.snd).length : ℚ)) := by
      have hselect : (selectIdx y.entries
          (stratifiedPartition (y.entries.map Prod.snd) f (rs.getD g)).1).length =
          (stratifiedPartition (y.entries.map Prod.snd) f (rs.getD g)).1.length := by
        apply selectIdx_length
        intro i hi
        have := mem_testPositions_lt (y.entries.map Prod.snd) f (rs.getD g) i hi
        simpa using this
      rw [Series.takeRows]
      dsimp only
      rw [hselect, stratified_test_length _ _ _ hf0.le hf1.le]
    rw [hlen]
    simp only [ceilN, List.length_map]
    have hnn : (0 : ℚ) ≤ f * (y.entries.length : ℚ) :=
      mul_nonneg hf0.le (Nat.cast_nonneg _)
    rw [abs_lt]
    constructor
    · linarith [Nat.le_ceil (f * (y.entries.length : ℚ))]
    · linarith [Nat.ceil_lt_add_one hnn]

theorem split_train_test_stratified_witness :
    ∃ Xtr Xte ytr yte,
      split_train_test ⟨["a"], [(0, [10]), (1, [20]), (2, [30]), (3, [40])]⟩
          ⟨"t", [(0, 1), (1, 0), (2, 1), (3, 0)]⟩ (1/2) (some 1) 0 =
        .ok (Xtr, Xte, ytr, yte) ∧
      (∀ v ∈ ((⟨"t", [(0, 1), (1, 0), (2, 1), (3, 0)]⟩ : Series).entries.map
          Prod.snd).dedup,
        |((yte.entries.map Prod.snd).count v : ℚ) -
            (1/2) * (((⟨"t", [(0, 1), (1, 0), (2, 1), (3, 0)]⟩ : Series).entries.map
              Prod.snd).count v : ℚ)| ≤ 1 ∧
        |((ytr.entries.map Prod.snd).count v : ℚ) -
            (1 - 1/2) * (((⟨"t", [(0, 1), (1, 0), (2, 1), (3, 0)]⟩ : Series).entries.map
              Prod.snd).count v : ℚ)| ≤ 1) ∧
      |(yte.entries.length : ℚ) -
          (1/2) * ((⟨"t", [(0, 1), (1, 0), (2, 1), (3, 0)]⟩ : Series).entries.length : ℚ)| < 1 :=
  split_train_test_stratified
    ⟨["a"], [(0, [10]), (1, [20]), (2, [30]), (3, [40])]⟩
    ⟨"t", [(0, 1), (1, 0), (2, 1), (3, 0)]⟩ (1/2) (some 1) 0
    (by norm_num) (by decide)
